import Mathlib

/-!
Verification of the SplitBotAI balance engine
(`src/calculator/gpt_expense_calculator.py`, with the singleton variant in
`src/python/calculator/gpt_expense_calculator.py`).

Python `Decimal` values are embedded as exact rationals `ℚ`; the engine's
28-significant-digit context comfortably covers every quantity the claims
exercise, and the exact-division abstraction is noted where it is used.
Quantisation to two decimal places with `ROUND_HALF_UP` is modelled by
`roundHalfUpCents` / `round2` below.  The `float(...)` cast the source
performs on the final dictionary is a boundary conversion outside the model.
-/

namespace SplitBot

/-- A validated transaction as stored by `GroupExpenseCalculator`:
`Transaction(payer=payer, amount=amt, receivers=receivers)` — exactly the
three fields, nothing else. -/
structure Transaction where
  payer : String
  amount : ℚ
  receivers : List String
deriving DecidableEq, Repr

/-- A raw candidate record as passed to `add_transaction`: the three known
fields plus arbitrary extra keyword fields (`**kwargs`, e.g. a free-text
description), which the source ignores. The payer/receiver type checks of the
source cannot fail in this typed embedding, and `amount` arrives already
parsed as an exact decimal value. -/
structure RawTxn where
  payer : String
  amount : ℚ
  receivers : List String
  extra : List (String × String)
deriving DecidableEq, Repr

/-- Validation failure reasons of `add_transaction` (spec §4.1 taxonomy
restricted to the checks expressible on typed input). -/
inductive TxnError where
  | nonPositiveAmount
  | amountTooLarge
  | emptyReceivers
deriving DecidableEq, Repr

/-- `self._MAX_AMOUNT = Decimal('999999999999.99')`. -/
def MAX_AMOUNT : ℚ := (99999999999999 : ℚ) / 100

/-- The validation sequence of `add_transaction`:
`if amt <= 0: raise`, `if amt > self._MAX_AMOUNT: raise`,
`if not receivers: raise`; on success the stored record keeps only
payer, amount and receivers (extra fields are dropped). -/
def validate (c : RawTxn) : Except TxnError Transaction :=
  if c.amount ≤ 0 then Except.error TxnError.nonPositiveAmount
  else if MAX_AMOUNT < c.amount then Except.error TxnError.amountTooLarge
  else if c.receivers = [] then Except.error TxnError.emptyReceivers
  else Except.ok { payer := c.payer, amount := c.amount, receivers := c.receivers }

/-- Whether validation succeeds. -/
def isAccepted (c : RawTxn) : Bool := (validate c).toOption.isSome

/-- `add_transaction`: validate, then append to `self._transactions`. -/
def add_transaction (log : List Transaction) (c : RawTxn) :
    Except TxnError (List Transaction) :=
  (validate c).map (fun v => log ++ [v])

/-- Outcome of a batch submission: either all elements committed, or a
failure at a reported index with the ledger as it stands at that point. -/
inductive BatchResult where
  | ok (log : List Transaction)
  | fail (log : List Transaction) (idx : Nat) (err : TxnError)
deriving DecidableEq, Repr

/-- The loop body of `add_transactions`: `for idx, txn in enumerate(...)`,
each element validated and appended immediately; the first failure raises
`ValueError(f"Transaction idx is invalid: ...")`, leaving the already
appended elements in the ledger. -/
def addGo : List Transaction → Nat → List RawTxn → BatchResult
  | log, _, [] => BatchResult.ok log
  | log, i, c :: cs =>
    match validate c with
    | Except.error e => BatchResult.fail log i e
    | Except.ok v => addGo (log ++ [v]) (i + 1) cs

/-- `add_transactions`: iterate from index 0. -/
def add_transactions (log : List Transaction) (cs : List RawTxn) : BatchResult :=
  addGo log 0 cs

/-- `Decimal.quantize(Decimal('0.01'), rounding=ROUND_HALF_UP)` expressed in
cents: round to the nearest integer number of cents, ties away from zero
(Python's `ROUND_HALF_UP`). -/
def roundHalfUpCents (q : ℚ) : ℤ :=
  if q < 0 then -⌊-q * 100 + 1 / 2⌋ else ⌊q * 100 + 1 / 2⌋

/-- Quantisation of a value to two decimal places with `ROUND_HALF_UP`. -/
def round2 (q : ℚ) : ℚ := (roundHalfUpCents q : ℚ) / 100

/-- Net contribution of one transaction to person `p`:
`net[payer] += amount`, and `net[receiver] -= share` once per occurrence of
`p` in the receivers list, with `share = amount / Decimal(len(receivers))`
(exact division here; the source divides at 28 significant digits). -/
def netContrib (t : Transaction) (p : String) : ℚ :=
  (if t.payer = p then t.amount else 0)
    - (t.receivers.count p : ℚ) * (t.amount / (t.receivers.length : ℚ))

/-- The accumulator `net[p]` after the transaction loop of
`calculate_balances`. -/
def net (log : List Transaction) (p : String) : ℚ :=
  (log.map (fun t => netContrib t p)).sum

/-- Append a key if it is not yet present (how a fresh key materialises in
the `net` defaultdict). -/
def insertKey (acc : List String) (k : String) : List String :=
  if k ∈ acc then acc else acc ++ [k]

/-- The identifiers a transaction touches in the `net` mapping, in touch
order: the payer (by `net[payer] += amount`) and then each receiver. -/
def touched (t : Transaction) : List String :=
  t.payer :: t.receivers

/-- The key set `all_receivers = set(net.keys())` of `calculate_balances`.
The source enumerates it in an unspecified hash order; this canonical list
fixes first-touch order, and the computation below is additionally stated
over an arbitrary enumeration parameter where order matters. -/
def persons (log : List Transaction) : List String :=
  log.foldl (fun acc t => (touched t).foldl insertKey acc) []

/-- The `rounded_balances` dictionary: for each enumerated person, the net
accumulator quantised to two decimals with `ROUND_HALF_UP`. -/
def roundedOf (f : String → ℚ) (ord : List String) : List (String × ℚ) :=
  ord.map (fun p => (p, round2 (f p)))

/-- Python's `max(d, key=d.get)` over an association list: the first entry
whose value is maximal (the fold replaces the current best only on a
strictly greater value, as `max` does). -/
def firstMaxBy (f : String × ℚ → ℚ) : List (String × ℚ) → Option (String × ℚ)
  | [] => none
  | x :: xs => some (xs.foldl (fun b y => if f b < f y then y else b) x)

/-- Python's `min(d, key=d.get)`: the first entry whose value is minimal. -/
def firstMinBy (f : String × ℚ → ℚ) : List (String × ℚ) → Option (String × ℚ)
  | [] => none
  | x :: xs => some (xs.foldl (fun b y => if f y < f b then y else b) x)

/-- `rounded_balances[candidate] -= correction`: subtract `corr` from the
(unique) entry keyed `c`. -/
def adjustFirst : List (String × ℚ) → String → ℚ → List (String × ℚ)
  | [], _, _ => []
  | e :: rest, c, corr =>
    if e.1 = c then (e.1, e.2 - corr) :: rest else e :: adjustFirst rest c corr

/-- The residual-correction step of `calculate_balances`: if
`abs(residual) >= 0.01`, subtract the quantised residual from the largest
creditor (residual positive) or the largest debtor (otherwise); the `none`
branch is unreachable because a nonzero residual forces a nonempty mapping
(in the source, `max`/`min` of an empty dict would raise, but the guard
prevents that). -/
def correctedBalances (rb : List (String × ℚ)) : List (String × ℚ) :=
  if 1 / 100 ≤ |(rb.map Prod.snd).sum| then
    match
      (if 0 < (rb.map Prod.snd).sum then firstMaxBy Prod.snd rb
       else firstMinBy Prod.snd rb) with
    | some c => adjustFirst rb c.1 (round2 ((rb.map Prod.snd).sum))
    | none => rb
  else rb

/-- The result of `calculate_balances`: the (corrected) balance mapping plus
the zero-sum warning flag (`warnings.warn` fires when the final sum is still
at least one cent in magnitude). -/
structure BalanceResult where
  balances : List (String × ℚ)
  warning : Bool
deriving DecidableEq, Repr

/-- The tail of `calculate_balances` once the `net` accumulators are built,
over an explicit enumeration `ord` of the key set (the source's
`set(net.keys())` iteration order, unspecified there): round, correct the
residual, and compute the warning flag. -/
def calcFromNet (f : String → ℚ) (ord : List String) : BalanceResult :=
  { balances := correctedBalances (roundedOf f ord)
    warning :=
      decide ((1 : ℚ) / 100 ≤ |((correctedBalances (roundedOf f ord)).map Prod.snd).sum|) }

/-- `calculate_balances` over the transaction log, with the key-set
enumeration `ord` as an explicit parameter. -/
def calculate_balances (log : List Transaction) (ord : List String) : BalanceResult :=
  calcFromNet (net log) ord

/-- `calculate_balances` with the canonical first-touch enumeration of the
key set. -/
def calcBalances (log : List Transaction) : BalanceResult :=
  calculate_balances log (persons log)

/-- Identifier appears as payer or receiver of some transaction in the log. -/
def appearsIn (log : List Transaction) (p : String) : Prop :=
  ∃ t ∈ log, p = t.payer ∨ p ∈ t.receivers

/-- Engine state: `self._transactions` is the only state read by
`calculate_balances`. -/
structure Engine where
  transactions : List Transaction
deriving DecidableEq, Repr

/-- `calculate_balances` as a state transition: it reads the log and returns
the mapping without mutating the engine. -/
def computeBalances (eng : Engine) (ord : List String) : Engine × BalanceResult :=
  (eng, calculate_balances eng.transactions ord)

/-- Modelled from the singleton variant
(`src/python/calculator/gpt_expense_calculator.py`, lines 16-29): class-level
state is `_instance` (here `none` when no instance exists, `some log` for the
instance together with its `_transactions`).  `GroupExpenseCalculator()` runs
`__new__` (create the instance only if absent) then `__init__` (reset the log
only when `_initialized` is still false, i.e. only on first creation). -/
def constructCalculator : Option (List RawTxn) → Option (List RawTxn)
  | none => some []
  | some log => some log

/-! ## Supporting lemmas -/

lemma validate_ok (c : RawTxn) (h1 : 0 < c.amount) (h2 : c.amount ≤ MAX_AMOUNT)
    (h3 : c.receivers ≠ []) :
    validate c = Except.ok { payer := c.payer, amount := c.amount, receivers := c.receivers } := by
  unfold validate
  rw [if_neg (not_le.mpr h1), if_neg (not_lt.mpr h2), if_neg h3]

lemma isAccepted_of (c : RawTxn) (h1 : 0 < c.amount) (h2 : c.amount ≤ MAX_AMOUNT)
    (h3 : c.receivers ≠ []) : isAccepted c = true := by
  unfold isAccepted
  rw [validate_ok c h1 h2 h3]
  rfl

lemma floor_half : ⌊(1 / 2 : ℚ)⌋ = 0 :=
  Int.floor_eq_iff.mpr ⟨by norm_num, by norm_num⟩

/-- Quantisation is the identity on values that are already whole cents. -/
lemma round2_intCast_div (m : ℤ) : round2 ((m : ℚ) / 100) = (m : ℚ) / 100 := by
  have hc : (m : ℚ) / 100 * 100 = (m : ℚ) := div_mul_cancel₀ _ (by norm_num)
  unfold round2 roundHalfUpCents
  by_cases h : (m : ℚ) / 100 < 0
  · rw [if_pos h]
    have h2 : -((m : ℚ) / 100) * 100 + 1 / 2 = ((-m : ℤ) : ℚ) + 1 / 2 := by
      rw [neg_mul, hc]; push_cast; ring
    rw [h2, Int.floor_int_add, floor_half]
    push_cast; ring
  · rw [if_neg h]
    have h2 : (m : ℚ) / 100 * 100 + 1 / 2 = ((m : ℤ) : ℚ) + 1 / 2 := by rw [hc]
    rw [h2, Int.floor_int_add, floor_half]
    push_cast; ring

/-- The sum of a rounded-balance list is a whole number of cents. -/
lemma sum_roundedOf (f : String → ℚ) (ord : List String) :
    ∃ M : ℤ, ((roundedOf f ord).map Prod.snd).sum = (M : ℚ) / 100 := by
  induction ord with
  | nil => exact ⟨0, by simp [roundedOf]⟩
  | cons p ps ih =>
    obtain ⟨M, hM⟩ := ih
    refine ⟨roundHalfUpCents (f p) + M, ?_⟩
    simp only [roundedOf, List.map_cons, List.map_map, List.sum_cons] at hM ⊢
    rw [round2, hM]
    push_cast; ring

lemma adjustFirst_map_fst (l : List (String × ℚ)) (c : String) (corr : ℚ) :
    (adjustFirst l c corr).map Prod.fst = l.map Prod.fst := by
  induction l with
  | nil => rfl
  | cons e rest ih =>
    by_cases he : e.1 = c
    · simp [adjustFirst, he]
    · simp [adjustFirst, he, ih]

lemma adjustFirst_sum (l : List (String × ℚ)) (c : String) (corr : ℚ)
    (h : c ∈ l.map Prod.fst) :
    ((adjustFirst l c corr).map Prod.snd).sum = (l.map Prod.snd).sum - corr := by
  induction l with
  | nil => simp at h
  | cons e rest ih =>
    by_cases he : e.1 = c
    · simp [adjustFirst, he]; ring
    · have hc : c ∈ rest.map Prod.fst := by
        rcases List.mem_cons.mp h with h1 | h1
        · exact absurd h1.symm he
        · exact h1
      simp [adjustFirst, he, ih hc]; ring

lemma foldl_pick_mem (step : (String × ℚ) → (String × ℚ) → (String × ℚ))
    (hstep : ∀ b y, step b y = b ∨ step b y = y) :
    ∀ (xs : List (String × ℚ)) (x : String × ℚ), xs.foldl step x ∈ x :: xs := by
  intro xs
  induction xs with
  | nil => intro x; simp
  | cons y ys ih =>
    intro x
    rw [List.foldl_cons]
    rcases hstep x y with h3 | h3 <;> rw [h3]
    · rcases List.mem_cons.mp (ih x) with h2 | h2
      · exact List.mem_cons.mpr (Or.inl h2)
      · exact List.mem_cons.mpr (Or.inr (List.mem_cons.mpr (Or.inr h2)))
    · rcases List.mem_cons.mp (ih y) with h2 | h2
      · exact List.mem_cons.mpr (Or.inr (List.mem_cons.mpr (Or.inl h2)))
      · exact List.mem_cons.mpr (Or.inr (List.mem_cons.mpr (Or.inr h2)))

lemma firstMaxBy_mem (f : String × ℚ → ℚ) (l : List (String × ℚ)) (m : String × ℚ)
    (h : firstMaxBy f l = some m) : m ∈ l := by
  cases l with
  | nil => simp [firstMaxBy] at h
  | cons x xs =>
    have hm : xs.foldl (fun b y => if f b < f y then y else b) x = m := by
      simpa [firstMaxBy] using h
    have := foldl_pick_mem (fun b y => if f b < f y then y else b)
      (fun b y => by by_cases hby : f b < f y <;> simp [hby]) xs x
    rw [hm] at this
    exact this

lemma firstMinBy_mem (f : String × ℚ → ℚ) (l : List (String × ℚ)) (m : String × ℚ)
    (h : firstMinBy f l = some m) : m ∈ l := by
  cases l with
  | nil => simp [firstMinBy] at h
  | cons x xs =>
    have hm : xs.foldl (fun b y => if f y < f b then y else b) x = m := by
      simpa [firstMinBy] using h
    have := foldl_pick_mem (fun b y => if f y < f b then y else b)
      (fun b y => by by_cases hby : f y < f b <;> simp [hby]) xs x
    rw [hm] at this
    exact this

/-- After the single correction step, a whole-cents balance list sums to
exactly zero: if the guard fired, the entire quantised residual was removed
from one entry; if it did not, a residual below one cent that is a whole
number of cents is already zero. -/
lemma correctedBalances_sum_zero (rb : List (String × ℚ))
    (h : ∃ M : ℤ, (rb.map Prod.snd).sum = (M : ℚ) / 100) :
    ((correctedBalances rb).map Prod.snd).sum = 0 := by
  obtain ⟨M, hM⟩ := h
  unfold correctedBalances
  by_cases hres : (1 : ℚ) / 100 ≤ |(rb.map Prod.snd).sum|
  · rw [if_pos hres]
    have hne : (rb.map Prod.snd).sum ≠ 0 := by
      intro h0
      rw [h0] at hres
      norm_num at hres
    have hrbne : rb ≠ [] := by
      intro h0
      rw [h0] at hne
      simp at hne
    rcases hcand :
        (if 0 < (rb.map Prod.snd).sum then firstMaxBy Prod.snd rb
         else firstMinBy Prod.snd rb) with _ | c
    · exfalso
      cases rb with
      | nil => exact hrbne rfl
      | cons x xs => split at hcand <;> simp [firstMaxBy, firstMinBy] at hcand
    · have hmem : c ∈ rb := by
        by_cases hpos : 0 < (rb.map Prod.snd).sum
        · rw [if_pos hpos] at hcand
          exact firstMaxBy_mem _ _ _ hcand
        · rw [if_neg hpos] at hcand
          exact firstMinBy_mem _ _ _ hcand
      have hkey : c.1 ∈ rb.map Prod.fst := List.mem_map.mpr ⟨c, hmem, rfl⟩
      rw [adjustFirst_sum rb c.1 _ hkey, hM, round2_intCast_div]
      ring
  · rw [if_neg hres]
    push_neg at hres
    rw [hM] at hres
    rw [abs_div] at hres
    have h100 : |(100 : ℚ)| = 100 := by norm_num
    rw [h100, div_lt_div_iff_of_pos_right (by norm_num : (0 : ℚ) < 100)] at hres
    have habs : |(M : ℚ)| = ((|M| : ℤ) : ℚ) := Int.cast_abs.symm
    rw [habs] at hres
    have : |M| < 1 := by exact_mod_cast hres
    have hM0 : M = 0 := Int.abs_lt_one_iff.mp this
    rw [hM, hM0]
    norm_num

/-- Membership in `insertKey`. -/
lemma mem_insertKey (acc : List String) (k a : String) :
    a ∈ insertKey acc k ↔ a ∈ acc ∨ a = k := by
  unfold insertKey
  by_cases h : k ∈ acc
  · rw [if_pos h]
    exact ⟨Or.inl, fun h2 => h2.elim id (fun e => e ▸ h)⟩
  · rw [if_neg h]
    simp

lemma mem_foldl_insertKey (ks : List String) :
    ∀ (acc : List String) (a : String),
      a ∈ ks.foldl insertKey acc ↔ a ∈ acc ∨ a ∈ ks := by
  induction ks with
  | nil => simp
  | cons k ks ih =>
    intro acc a
    rw [List.foldl_cons, ih, mem_insertKey]
    simp [List.mem_cons]
    tauto

lemma mem_persons_aux (log : List Transaction) :
    ∀ (acc : List String) (a : String),
      a ∈ log.foldl (fun acc t => (touched t).foldl insertKey acc) acc ↔
        a ∈ acc ∨ ∃ t ∈ log, a ∈ touched t := by
  induction log with
  | nil => simp
  | cons t ts ih =>
    intro acc a
    rw [List.foldl_cons, ih, mem_foldl_insertKey]
    simp [List.mem_cons]
    tauto

/-- The key set of the balance mapping is exactly the payers and receivers. -/
lemma mem_persons_iff (log : List Transaction) (p : String) :
    p ∈ persons log ↔ appearsIn log p := by
  unfold persons appearsIn
  rw [mem_persons_aux]
  simp [touched, List.mem_cons]

lemma roundedOf_map_fst (f : String → ℚ) (ord : List String) :
    (roundedOf f ord).map Prod.fst = ord := by
  simp [roundedOf, List.map_map, Function.comp_def]

lemma correctedBalances_map_fst (rb : List (String × ℚ)) :
    (correctedBalances rb).map Prod.fst = rb.map Prod.fst := by
  unfold correctedBalances
  by_cases hres : (1 : ℚ) / 100 ≤ |(rb.map Prod.snd).sum|
  · rw [if_pos hres]
    rcases (if 0 < (rb.map Prod.snd).sum then firstMaxBy Prod.snd rb
            else firstMinBy Prod.snd rb) with _ | c
    · rfl
    · exact adjustFirst_map_fst rb c.1 _
  · rw [if_neg hres]

/-- Quantisation is the identity on whole currency units. -/
lemma round2_intCast (m : ℤ) : round2 ((m : ℚ)) = (m : ℚ) := by
  have h := round2_intCast_div (m * 100)
  have hc : ((m * 100 : ℤ) : ℚ) / 100 = (m : ℚ) := by push_cast; field_simp
  rw [hc] at h
  exact h

/-! ## Claims -/

/-- C1: Conservation — for every sequence of valid accepted transactions
(indeed for every transaction log and every enumeration of the key set), the
balance mapping returned by `calculate_balances` has entries whose sum is
exactly 0.00 after the single residual-correction step. -/
theorem calculate_balances_conservation (log : List Transaction) (ord : List String) :
    ((calculate_balances log ord).balances.map Prod.snd).sum = 0 :=
  correctedBalances_sum_zero _ (sum_roundedOf (net log) ord)

/-- C2 counterexample: the claim asserts that a tie fraction rounds to the
next value up so that -0.005 rounds to 0.00; but the engine's
`ROUND_HALF_UP` quantisation sends the exact accumulator value -0.005
(realised as Bob's net for the ledger in which Alice pays 0.01 split between
Bob and Charlie) to -0.01, not 0.00. -/
theorem round2_negative_tie_cex :
    net [{ payer := "Alice", amount := 1 / 100, receivers := ["Bob", "Charlie"] }] "Bob"
        = -(1 / 200) ∧
      round2 (-(1 / 200)) = -(1 / 100) ∧ round2 (-(1 / 200)) ≠ 0 := by
  refine ⟨?_, ?_, ?_⟩
  · simp [net, netContrib]
    norm_num
  · unfold round2 roundHalfUpCents
    rw [if_pos (by norm_num : (-(1 / 200) : ℚ) < 0)]
    rw [show (-(-(1 / 200)) : ℚ) * 100 + 1 / 2 = 1 by norm_num, Int.floor_one]
    norm_num
  · unfold round2 roundHalfUpCents
    rw [if_pos (by norm_num : (-(1 / 200) : ℚ) < 0)]
    rw [show (-(-(1 / 200)) : ℚ) * 100 + 1 / 2 = 1 by norm_num, Int.floor_one]
    norm_num

/-- C2 amended: rounding of every per-person exact accumulator value to 2
decimal places follows round-half-up in the `ROUND_HALF_UP` sense of the
source: ties round away from zero on the signed value, so 0.005 rounds to
0.01 and -0.005 rounds to -0.01 (the rounding is odd-symmetric, i.e.
half-up applied to the magnitude with the sign restored). -/
theorem round2_half_away_from_zero :
    (∀ q : ℚ, round2 (-q) = -round2 q) ∧
      round2 (1 / 200) = 1 / 100 ∧ round2 (-(1 / 200)) = -(1 / 100) := by
  refine ⟨?_, ?_, ?_⟩
  · intro q
    rcases lt_trichotomy q 0 with h | h | h
    · unfold round2 roundHalfUpCents
      rw [if_neg (by linarith : ¬(-q < 0)), if_pos h]
      push_cast
      ring
    · have h0 : round2 (0 : ℚ) = 0 := by
        unfold round2 roundHalfUpCents
        rw [if_neg (lt_irrefl 0), show ((0 : ℚ)) * 100 + 1 / 2 = 1 / 2 by norm_num, floor_half]
        norm_num
      rw [h, neg_zero, h0, neg_zero]
    · unfold round2 roundHalfUpCents
      rw [if_pos (by linarith : -q < 0), if_neg (not_lt.mpr h.le), neg_neg]
      push_cast
      ring
  · unfold round2 roundHalfUpCents
    rw [if_neg (by norm_num : ¬((1 / 200 : ℚ) < 0))]
    rw [show ((1 / 200 : ℚ)) * 100 + 1 / 2 = 1 by norm_num, Int.floor_one]
    norm_num
  · unfold round2 roundHalfUpCents
    rw [if_pos (by norm_num : (-(1 / 200) : ℚ) < 0)]
    rw [show (-(-(1 / 200)) : ℚ) * 100 + 1 / 2 = 1 by norm_num, Int.floor_one]
    norm_num

/-- C4: Amount-boundary validation — an amount exactly equal to
999999999999.99 is accepted (given a nonempty receivers list); one cent more
fails with `AmountTooLarge`; an amount equal to 0 or negative fails with
`NonPositiveAmount`. -/
theorem validate_amount_boundary (p : String) (rs : List String)
    (ex : List (String × String)) (hrs : rs ≠ []) :
    validate { payer := p, amount := MAX_AMOUNT, receivers := rs, extra := ex }
        = Except.ok { payer := p, amount := MAX_AMOUNT, receivers := rs } ∧
      validate { payer := p, amount := MAX_AMOUNT + 1 / 100, receivers := rs, extra := ex }
        = Except.error TxnError.amountTooLarge ∧
      ∀ a : ℚ, a ≤ 0 →
        validate { payer := p, amount := a, receivers := rs, extra := ex }
          = Except.error TxnError.nonPositiveAmount := by
  refine ⟨?_, ?_, ?_⟩
  · exact validate_ok _ (by norm_num [MAX_AMOUNT]) le_rfl hrs
  · unfold validate
    rw [if_neg (by norm_num [MAX_AMOUNT]), if_pos (by norm_num)]
  · intro a ha
    unfold validate
    rw [if_pos ha]

/-- C4 witness: the boundary behaviour at a concrete candidate. -/
theorem validate_amount_boundary_witness :
    validate ⟨"Alice", MAX_AMOUNT, ["Bob"], []⟩
        = Except.ok ⟨"Alice", MAX_AMOUNT, ["Bob"]⟩ ∧
      validate ⟨"Alice", MAX_AMOUNT + 1 / 100, ["Bob"], []⟩
        = Except.error TxnError.amountTooLarge ∧
      validate ⟨"Alice", (0 : ℚ), ["Bob"], []⟩
        = Except.error TxnError.nonPositiveAmount := by
  obtain ⟨h1, h2, h3⟩ :=
    validate_amount_boundary "Alice" ["Bob"] [] (by simp)
  exact ⟨h1, h2, h3 0 le_rfl⟩

/-- C8: Extra-field tolerance — a candidate carrying unknown extra fields
alongside a valid payer, amount and receivers passes validation, and the
transaction appended to the ledger holds only the payer, amount and
receivers fields (the extras are discarded). -/
theorem add_transaction_extra_fields (log : List Transaction) (p : String) (a : ℚ)
    (rs : List String) (ex : List (String × String))
    (h1 : 0 < a) (h2 : a ≤ MAX_AMOUNT) (h3 : rs ≠ []) :
    add_transaction log { payer := p, amount := a, receivers := rs, extra := ex }
      = Except.ok (log ++ [{ payer := p, amount := a, receivers := rs }]) := by
  unfold add_transaction
  rw [validate_ok _ h1 h2 h3]
  rfl

/-- C8 witness: a candidate with a free-text description is accepted and
stored without it. -/
theorem add_transaction_extra_fields_witness :
    add_transaction []
        { payer := "Alice", amount := 10, receivers := ["Alice", "Bob"],
          extra := [("description", "lunch at cafe")] }
      = Except.ok [{ payer := "Alice", amount := 10, receivers := ["Alice", "Bob"] }] :=
  add_transaction_extra_fields [] "Alice" 10 ["Alice", "Bob"]
    [("description", "lunch at cafe")] (by norm_num) (by norm_num [MAX_AMOUNT]) (by simp)

/-- Running the batch loop over a fully-valid segment appends every
validated element in order and advances the index by the segment length. -/
lemma addGo_ok_segment (pre : List RawTxn) :
    ∀ (log : List Transaction) (i : Nat) (rest : List RawTxn),
      (∀ u ∈ pre, isAccepted u = true) →
      addGo log i (pre ++ rest) =
        addGo (log ++ pre.filterMap (fun u => (validate u).toOption)) (i + pre.length) rest := by
  induction pre with
  | nil => intro log i rest _; simp
  | cons u pre ih =>
    intro log i rest h
    have hu : isAccepted u = true := h u (List.mem_cons_self u pre)
    obtain ⟨v, hv⟩ : ∃ v, validate u = Except.ok v := by
      unfold isAccepted at hu
      cases hval : validate u with
      | ok v => exact ⟨v, rfl⟩
      | error e => rw [hval] at hu; simp [Except.toOption] at hu
    have hstep : addGo log i ((u :: pre) ++ rest) = addGo (log ++ [v]) (i + 1) (pre ++ rest) := by
      simp [addGo, hv]
    rw [hstep, ih (log ++ [v]) (i + 1) rest (fun w hw => h w (List.mem_cons_of_mem u hw))]
    have hidx : i + 1 + pre.length = i + (pre.length + 1) := by omega
    simp [hv, Except.toOption, List.append_assoc, hidx, List.length_cons]

/-- C3: Batch submission validates each element in order and appends it
immediately: if every element of `pre` is valid and the next element fails
validation with reason `e`, then `add_transactions` fails reporting the
index `pre.length` (the position of the first invalid element) and the
reason, and the ledger at that point holds exactly the prior log plus the
validated elements of `pre` in order — no later element is committed. -/
theorem add_transactions_failfast (log : List Transaction) (pre : List RawTxn)
    (bad : RawTxn) (rest : List RawTxn) (e : TxnError)
    (hpre : ∀ u ∈ pre, isAccepted u = true)
    (hbad : validate bad = Except.error e) :
    add_transactions log (pre ++ bad :: rest) =
      BatchResult.fail (log ++ pre.filterMap (fun u => (validate u).toOption)) pre.length e := by
  unfold add_transactions
  rw [addGo_ok_segment pre log 0 (bad :: rest) hpre]
  simp [addGo, hbad]

/-- C3 witness: a two-element batch whose second element has amount 0 fails
at index 1 with `NonPositiveAmount`, with the first element committed. -/
theorem add_transactions_failfast_witness :
    add_transactions [] [⟨"Alice", 5, ["Bob"], []⟩, ⟨"Alice", 0, ["Bob"], []⟩] =
      BatchResult.fail [⟨"Alice", 5, ["Bob"]⟩] 1 TxnError.nonPositiveAmount := by
  have hok : validate (⟨"Alice", 5, ["Bob"], []⟩ : RawTxn) =
      Except.ok ⟨"Alice", 5, ["Bob"]⟩ :=
    validate_ok _ (by norm_num) (by norm_num [MAX_AMOUNT]) (by simp)
  have hbad : validate (⟨"Alice", 0, ["Bob"], []⟩ : RawTxn) =
      Except.error TxnError.nonPositiveAmount := by
    unfold validate
    rw [if_pos le_rfl]
  have h := add_transactions_failfast [] [⟨"Alice", 5, ["Bob"], []⟩]
    ⟨"Alice", 0, ["Bob"], []⟩ [] TxnError.nonPositiveAmount
    (by
      intro u hu
      rw [List.mem_singleton] at hu
      rw [hu]
      unfold isAccepted
      rw [hok]
      rfl)
    hbad
  simpa [hok, Except.toOption] using h

/-- C5: Insertion-order irrelevance — submitting any two orderings of the
same multiset of transactions and then computing balances yields the same
balance mapping, for any fixed enumeration of the (identical) key set. -/
theorem calculate_balances_perm_invariant (ord : List String)
    (l1 l2 : List Transaction) (h : l1.Perm l2) :
    calculate_balances l1 ord = calculate_balances l2 ord := by
  unfold calculate_balances
  have hnet : net l1 = net l2 := funext fun p => (h.map (fun t => netContrib t p)).sum_eq
  rw [hnet]

/-- C5 witness: two concrete orderings of the same pair of transactions give
the same mapping. -/
theorem calculate_balances_perm_invariant_witness :
    calculate_balances
        [⟨"Alice", 10, ["Alice", "Bob"]⟩, ⟨"Bob", 20, ["Alice", "Bob"]⟩] ["Alice", "Bob"] =
      calculate_balances
        [⟨"Bob", 20, ["Alice", "Bob"]⟩, ⟨"Alice", 10, ["Alice", "Bob"]⟩] ["Alice", "Bob"] :=
  calculate_balances_perm_invariant ["Alice", "Bob"] _ _
    (List.Perm.swap (⟨"Bob", 20, ["Alice", "Bob"]⟩ : Transaction)
      (⟨"Alice", 10, ["Alice", "Bob"]⟩ : Transaction) [])

/-- C6: Coverage — the balance mapping contains an entry for every
identifier that appears as a payer or as a receiver of some accepted
transaction (including identifiers with net-zero balance), and for no other
identifier. -/
theorem calcBalances_coverage (log : List Transaction) (p : String) :
    (calcBalances log).balances.map Prod.fst = persons log ∧
      (p ∈ (calcBalances log).balances.map Prod.fst ↔ appearsIn log p) := by
  have hk : (calcBalances log).balances.map Prod.fst = persons log := by
    show (correctedBalances (roundedOf (net log) (persons log))).map Prod.fst = persons log
    rw [correctedBalances_map_fst, roundedOf_map_fst]
  exact ⟨hk, by rw [hk]; exact mem_persons_iff log p⟩

/-- C7: Idempotent and deterministic computation — the balance computation
does not change the ledger, engines with equal ledger contents produce equal
mappings, and a second call with no intervening submissions returns the same
mapping as the first. -/
theorem computeBalances_pure_deterministic (e1 e2 : Engine) (ord : List String)
    (h : e1.transactions = e2.transactions) :
    (computeBalances e1 ord).1 = e1 ∧
      (computeBalances e1 ord).2 = (computeBalances e2 ord).2 ∧
      (computeBalances (computeBalances e1 ord).1 ord).2 = (computeBalances e1 ord).2 := by
  refine ⟨rfl, ?_, rfl⟩
  show calculate_balances e1.transactions ord = calculate_balances e2.transactions ord
  rw [h]

/-- C7 witness: a concrete engine computed twice. -/
theorem computeBalances_pure_deterministic_witness :
    (computeBalances ⟨[⟨"Alice", 10, ["Alice", "Bob"]⟩]⟩ ["Alice", "Bob"]).1 =
        ⟨[⟨"Alice", 10, ["Alice", "Bob"]⟩]⟩ ∧
      (computeBalances ⟨[⟨"Alice", 10, ["Alice", "Bob"]⟩]⟩ ["Alice", "Bob"]).2 =
        (computeBalances ⟨[⟨"Alice", 10, ["Alice", "Bob"]⟩]⟩ ["Alice", "Bob"]).2 ∧
      (computeBalances (computeBalances ⟨[⟨"Alice", 10, ["Alice", "Bob"]⟩]⟩
            ["Alice", "Bob"]).1 ["Alice", "Bob"]).2 =
        (computeBalances ⟨[⟨"Alice", 10, ["Alice", "Bob"]⟩]⟩ ["Alice", "Bob"]).2 :=
  computeBalances_pure_deterministic ⟨[⟨"Alice", 10, ["Alice", "Bob"]⟩]⟩
    ⟨[⟨"Alice", 10, ["Alice", "Bob"]⟩]⟩ ["Alice", "Bob"] rfl

/-- C9: Empty-ledger edge case — with no transactions the computation
returns the empty mapping with no zero-sum warning (and, being a total
function, raises no error; the source's missing-key `ValueError` is
unreachable on typed records). -/
theorem calcBalances_empty :
    calcBalances [] = { balances := [], warning := false } ∧ persons [] = [] := by
  constructor
  · show calcFromNet (net []) (persons []) = _
    have hp : persons [] = [] := rfl
    rw [hp]
    unfold calcFromNet
    have hrb : roundedOf (net []) [] = [] := rfl
    rw [hrb]
    have hc : correctedBalances [] = [] := by
      unfold correctedBalances
      rw [if_neg (by norm_num)]
    rw [hc]
    simp
  · rfl

/-- C10: Singleton sharing — in the singleton engine variant, constructing
`GroupExpenseCalculator` when an instance already exists returns that
instance with its transaction log unchanged (re-initialization never clears
it), the first construction creates the single instance with an empty log,
and construction is idempotent, so transactions submitted through any
reference are visible through every reference. -/
theorem constructCalculator_singleton (log : List RawTxn) :
    constructCalculator (some log) = some log ∧
      constructCalculator none = some [] ∧
      ∀ s, constructCalculator (constructCalculator s) = constructCalculator s := by
  refine ⟨rfl, rfl, ?_⟩
  intro s
  cases s <;> rfl

/-! ## Embedding sanity: the usage example from the source docstring -/

/-- The docstring scenario: Alice pays 10.00 and Bob pays 20.00, each split
between Alice and Bob, giving balances Alice -5.00 and Bob 5.00 with no
warning. -/
theorem scenario_split_even :
    calcBalances [⟨"Alice", 10, ["Alice", "Bob"]⟩, ⟨"Bob", 20, ["Alice", "Bob"]⟩] =
      { balances := [("Alice", -5), ("Bob", 5)], warning := false } := by
  have hA : net [⟨"Alice", 10, ["Alice", "Bob"]⟩, ⟨"Bob", 20, ["Alice", "Bob"]⟩] "Alice"
      = -5 := by
    simp [net, netContrib]
    norm_num
  have hB : net [⟨"Alice", 10, ["Alice", "Bob"]⟩, ⟨"Bob", 20, ["Alice", "Bob"]⟩] "Bob"
      = 5 := by
    simp [net, netContrib]
    norm_num
  have hp : persons [⟨"Alice", 10, ["Alice", "Bob"]⟩, ⟨"Bob", 20, ["Alice", "Bob"]⟩]
      = ["Alice", "Bob"] := rfl
  have hr5 : round2 (-5 : ℚ) = -5 := by
    have := round2_intCast (-5)
    push_cast at this
    exact this
  have hr5b : round2 (5 : ℚ) = 5 := by
    have := round2_intCast 5
    push_cast at this
    exact this
  show calcFromNet _ _ = _
  rw [hp]
  unfold calcFromNet
  have hrb : roundedOf
      (net [⟨"Alice", 10, ["Alice", "Bob"]⟩, ⟨"Bob", 20, ["Alice", "Bob"]⟩])
      ["Alice", "Bob"] = [("Alice", -5), ("Bob", 5)] := by
    unfold roundedOf
    rw [List.map_cons, List.map_cons, List.map_nil, hA, hB, hr5, hr5b]
  rw [hrb]
  have hc : correctedBalances [("Alice", (-5 : ℚ)), ("Bob", 5)] =
      [("Alice", (-5 : ℚ)), ("Bob", 5)] := by
    unfold correctedBalances
    rw [if_neg (by norm_num)]
  rw [hc]
  simp [decide_eq_false_iff_not]

end SplitBot
